import Mathlib

set_option maxHeartbeats 1000000

/-!
Verification of the LOGICOM utility modules: the run-matrix orchestrator
(`multiple_runs.py`), the lock-protected Excel result store (`utils.py`),
and the structured-log formatter and channel filters (`log_main.py`).
Each definition is a shallow embedding of the corresponding Python code.
-/

/-- Errors that abort plan building before any execution
(`main()` in multiple_runs.py returns early in these cases). -/
inductive PlanError
| NoHelpers
| UnknownVariant (names : List String)
deriving DecidableEq

/-- One planned invocation: a helper type plus an optional claim index,
as appended to the `runs` list in `main()`. -/
abbrev RunEntry := String × Option Int

/-- Plan construction, translated from `main()` lines 98-131 of
multiple_runs.py: default to all available helpers when none requested,
abort on invalid helpers, then either one entry per claim index per helper
(sequential mode with indexes) or a single entry per helper carrying a
claim index only when exactly one index was requested. -/
def build_plan (helper_types_arg : List String) (claim_indexes : List Int)
    (available_helpers : List String) (sequential : Bool) :
    Except PlanError (List RunEntry) :=
  let helper_types := if helper_types_arg.isEmpty then available_helpers else helper_types_arg
  if helper_types.isEmpty then
    .error .NoHelpers
  else
    let invalid_helpers := helper_types.filter (fun h => !available_helpers.contains h)
    if invalid_helpers.isEmpty then
      .ok (helper_types.flatMap (fun ht =>
        if sequential && !claim_indexes.isEmpty then
          claim_indexes.map (fun ci => (ht, some ci))
        else
          [(ht, if claim_indexes.length == 1 then claim_indexes.head? else none)]))
    else
      .error (.UnknownVariant invalid_helpers)

/-- Summary printed at the end of `main()`: total, successful and failed runs. -/
structure RunSummary where
  total : Nat
  succeeded : Nat
  failed : Nat
deriving DecidableEq

/-- One iteration of the execution loop of `main()` (lines 145-158):
invoke the entry and tally it as a success or a failure. The third
component records the entries invoked so far, in order. -/
def runStep (invoker : String → Option Int → Bool) :
    Nat × Nat × List RunEntry → RunEntry → Nat × Nat × List RunEntry :=
  fun acc e =>
    if invoker e.1 e.2 then (acc.1 + 1, acc.2.1, acc.2.2 ++ [e])
    else (acc.1, acc.2.1 + 1, acc.2.2 ++ [e])

/-- The execution loop of `main()` (lines 141-168): run every planned entry
once, in plan order, and report the tally together with the list of
invocations actually issued. -/
def execute_plan (plan : List RunEntry) (invoker : String → Option Int → Bool) :
    RunSummary × List RunEntry :=
  let r := plan.foldl (runStep invoker) (0, 0, [])
  (⟨plan.length, r.1, r.2.1⟩, r.2.2)

/-- The whole of `main()` after argument parsing: build the plan and, only
when plan building succeeded, execute it. A plan error aborts before any
invocation. -/
def main_run (helper_types_arg : List String) (claim_indexes : List Int)
    (available_helpers : List String) (sequential : Bool)
    (invoker : String → Option Int → Bool) :
    Except PlanError (RunSummary × List RunEntry) :=
  match build_plan helper_types_arg claim_indexes available_helpers sequential with
  | .ok plan => .ok (execute_plan plan invoker)
  | .error e => .error e

theorem foldl_runStep (invoker : String → Option Int → Bool) :
    ∀ (plan : List RunEntry) (s f : Nat) (tr : List RunEntry),
    plan.foldl (runStep invoker) (s, f, tr)
      = (s + (plan.filter (fun e => invoker e.1 e.2)).length,
         f + (plan.filter (fun e => !invoker e.1 e.2)).length,
         tr ++ plan) := by
  intro plan
  induction plan with
  | nil => intro s f tr; simp
  | cons a rest ih =>
    intro s f tr
    cases hb : invoker a.1 a.2 with
    | false =>
      simp only [List.foldl_cons, runStep, hb, List.filter_cons, Bool.not_false,
        Bool.false_eq_true, if_false, if_true, List.length_cons]
      rw [ih]
      simp only [Prod.mk.injEq]
      refine ⟨?_, ?_, ?_⟩ <;> first | omega | simp
    | true =>
      simp only [List.foldl_cons, runStep, hb, List.filter_cons, Bool.not_true,
        Bool.false_eq_true, if_false, if_true, List.length_cons]
      rw [ih]
      simp only [Prod.mk.injEq]
      refine ⟨?_, ?_, ?_⟩ <;> first | omega | simp

theorem length_filter_not_add (p : RunEntry → Bool) (l : List RunEntry) :
    (l.filter p).length + (l.filter (fun e => !p e)).length = l.length := by
  induction l with
  | nil => simp
  | cons a rest ih =>
    simp only [List.filter_cons]
    by_cases h : p a <;> simp [h, ← ih] <;> omega

/-- C1: for every plan and every mix of invoker outcomes, the execution
loop returns a summary with `succeeded + failed = total = plan.length`,
each planned entry being invoked, and hence tallied, exactly once. -/
theorem execute_plan_tally (plan : List RunEntry) (invoker : String → Option Int → Bool) :
    (execute_plan plan invoker).1.succeeded + (execute_plan plan invoker).1.failed
        = (execute_plan plan invoker).1.total
      ∧ (execute_plan plan invoker).1.total = plan.length
      ∧ (execute_plan plan invoker).2 = plan := by
  unfold execute_plan
  rw [foldl_runStep]
  refine ⟨?_, rfl, by simp⟩
  simpa using length_filter_not_add (fun e => invoker e.1 e.2) plan

/-- C2: for a nonempty requested set contained in the available helpers,
non-sequential plan building never fails and emits exactly one entry per
requested helper, carrying a claim index exactly when a single index was
requested. -/
theorem build_plan_nonsequential (helper_types : List String) (claim_indexes : List Int)
    (available_helpers : List String)
    (hne : helper_types ≠ [])
    (hsub : ∀ h ∈ helper_types, available_helpers.contains h = true) :
    build_plan helper_types claim_indexes available_helpers false
      = .ok (helper_types.map (fun ht =>
          (ht, if claim_indexes.length == 1 then claim_indexes.head? else none))) := by
  have h1 : helper_types.isEmpty = false := by
    cases helper_types with
    | nil => exact absurd rfl hne
    | cons a t => rfl
  unfold build_plan
  simp only [h1, Bool.false_eq_true, if_false]
  have h2 : helper_types.filter (fun h => !available_helpers.contains h) = [] := by
    rw [List.filter_eq_nil_iff]
    intro a ha
    simpa using hsub a ha
  rw [h2]
  simp only [List.isEmpty_nil, if_true]
  congr 1
  simp only [Bool.false_and, Bool.false_eq_true, if_false]
  clear hne hsub h1 h2
  induction helper_types with
  | nil => rfl
  | cons a t ih =>
    simp only [List.flatMap_cons, List.map_cons, List.singleton_append]
    rw [List.cons.injEq]
    exact ⟨rfl, ih⟩

theorem build_plan_nonsequential_witness :
    build_plan ["vanilla"] [] ["vanilla", "fallacy"] false = .ok [("vanilla", none)] :=
  build_plan_nonsequential ["vanilla"] [] ["vanilla", "fallacy"] (by decide) (by decide)

/-- C3: any requested helper not among the available ones makes plan
building fail with `UnknownVariant` naming exactly the offending helpers;
no plan is produced and the composed run performs no invocation. -/
theorem build_plan_unknown_variant (helper_types : List String) (claim_indexes : List Int)
    (available_helpers : List String) (sequential : Bool)
    (invoker : String → Option Int → Bool)
    (h0 : ∃ h ∈ helper_types, available_helpers.contains h = false) :
    build_plan helper_types claim_indexes available_helpers sequential
        = .error (.UnknownVariant
            (helper_types.filter (fun h => !available_helpers.contains h)))
      ∧ helper_types.filter (fun h => !available_helpers.contains h) ≠ []
      ∧ main_run helper_types claim_indexes available_helpers sequential invoker
        = .error (.UnknownVariant
            (helper_types.filter (fun h => !available_helpers.contains h))) := by
  obtain ⟨h, hmem, hinv⟩ := h0
  have hne : helper_types ≠ [] := by
    intro hc; rw [hc] at hmem; exact absurd hmem (List.not_mem_nil h)
  have h1 : helper_types.isEmpty = false := by
    cases helper_types with
    | nil => exact absurd rfl hne
    | cons a t => rfl
  have hfil : h ∈ helper_types.filter (fun x => !available_helpers.contains x) := by
    rw [List.mem_filter]
    refine ⟨hmem, ?_⟩
    rw [hinv]
    rfl
  have h2 : helper_types.filter (fun x => !available_helpers.contains x) ≠ [] := by
    intro hc; rw [hc] at hfil; exact absurd hfil (List.not_mem_nil h)
  have h3 : (helper_types.filter (fun x => !available_helpers.contains x)).isEmpty = false := by
    cases hval : helper_types.filter (fun x => !available_helpers.contains x) with
    | nil => exact absurd hval h2
    | cons a t => rfl
  have hbp : build_plan helper_types claim_indexes available_helpers sequential
      = .error (.UnknownVariant
          (helper_types.filter (fun x => !available_helpers.contains x))) := by
    unfold build_plan
    simp only [h1, Bool.false_eq_true, if_false, h3]
  refine ⟨hbp, h2, ?_⟩
  unfold main_run
  rw [hbp]

theorem build_plan_unknown_variant_witness :
    build_plan ["bogus", "vanilla"] [] ["vanilla"] false
        = Except.error (.UnknownVariant ["bogus"])
      ∧ (["bogus", "vanilla"].filter (fun h => !(["vanilla"].contains h))) ≠ []
      ∧ main_run ["bogus", "vanilla"] [] ["vanilla"] false (fun _ _ => true)
        = Except.error (.UnknownVariant ["bogus"]) := by
  have h := build_plan_unknown_variant ["bogus", "vanilla"] [] ["vanilla"] false
    (fun _ _ => true) (by decide)
  exact h

/-- One persisted row of the shared Excel summary, with the column order
used by `save_debate_in_excel` in utils.py (lines 77-84). -/
structure Row where
  topic_id : String
  claim : String
  helper_type : String
  result : Int
  rounds : Int
  chat_id : String
deriving DecidableEq

/-- State of the shared table file `all_debates_summary.xlsx`: missing,
present but unparsable, or a parsed list of rows. -/
inductive FileState
| absent
| corrupt
| table (rows : List Row)
deriving DecidableEq

/-- Severity levels of the `logging` module used by utils.py. -/
inductive LogLevel
| debug
| info
| warning
| error
deriving DecidableEq

/-- What one call to `save_debate_in_excel` produces: the boolean returned
to the caller, the resulting state of the table file, and the log messages
emitted along the way. -/
structure SaveResult where
  ok : Bool
  fs : FileState
  logs : List (LogLevel × String)
deriving DecidableEq

/-- The `timeout=30` argument of `FileLock` in utils.py line 69. -/
def lock_timeout : Nat := 30

/-- Python `dict.get(key, default)` on a string-valued mapping. -/
def dictGetD (d : List (String × String)) (k v0 : String) : String :=
  (d.lookup k).getD v0

/-- Rows already present in the table file; an absent or unparsable file
contributes none. -/
def priorRows : FileState → List Row
  | .table rows => rows
  | _ => []

/-- Translation of `save_debate_in_excel` (utils.py lines 49-111).
`waitNeeded` is how long the file lock stays held by others: acquisition
succeeds within the bounded wait iff `waitNeeded ≤ lock_timeout`, else
`FileLock` raises `Timeout`, caught by the outer handler which returns
`False`. `writeOk` tells whether `df.to_excel` succeeds; its failure is
also caught by the outer handler. A read/parse failure of an existing
file is caught by the inner handler, logged at error level, and recovered
by restarting from just the new row. -/
def save_debate_in_excel (waitNeeded : Nat) (writeOk : Bool) (topic_id : String)
    (claim_data : List (String × String)) (helper_type chat_id : String)
    (result rounds : Int) (fs : FileState) : SaveResult :=
  if lock_timeout < waitNeeded then
    ⟨false, fs, [(.error, "Error saving debate to Excel")]⟩
  else
    let claim := dictGetD claim_data "claim" "Unknown claim"
    let new_row : Row := ⟨topic_id, claim, helper_type, result, rounds, chat_id⟩
    let df : List Row :=
      match fs with
      | .absent => [new_row]
      | .corrupt => [new_row]
      | .table rows => rows ++ [new_row]
    let readLogs : List (LogLevel × String) :=
      match fs with
      | .corrupt => [(.error, "Error reading existing Excel file")]
      | _ => []
    if writeOk then
      ⟨true, .table df, readLogs ++ [(.info, "Successfully updated debate summary")]⟩
    else
      ⟨false, fs, readLogs ++ [(.error, "Error saving debate to Excel")]⟩

/-- C4: the exclusion marker is waited on for at most `lock_timeout = 30`
time units; when the wait exceeds that bound the lock acquisition times
out, the call reports failure to its caller (return value `False`) and
the table file is left exactly as it was: no row added, no file created. -/
theorem save_lock_timeout (waitNeeded : Nat) (writeOk : Bool) (topic_id : String)
    (claim_data : List (String × String)) (helper_type chat_id : String)
    (result rounds : Int) (fs : FileState)
    (h : lock_timeout < waitNeeded) :
    lock_timeout = 30
      ∧ save_debate_in_excel waitNeeded writeOk topic_id claim_data helper_type chat_id
          result rounds fs
        = ⟨false, fs, [(.error, "Error saving debate to Excel")]⟩ := by
  refine ⟨rfl, ?_⟩
  unfold save_debate_in_excel
  rw [if_pos h]

theorem save_lock_timeout_witness :
    lock_timeout = 30
      ∧ save_debate_in_excel 31 true "t1" [("claim", "c")] "vanilla" "id1" 1 3 .absent
        = ⟨false, .absent, [(.error, "Error saving debate to Excel")]⟩ :=
  save_lock_timeout 31 true "t1" [("claim", "c")] "vanilla" "id1" 1 3 .absent (by decide)

/-- C5 counterexample: when the existing table fails to parse, the code
logs the failure with `logger.error`, i.e. at error severity; no entry of
the emitted log trace has warning severity, contradicting the claim that
the store logs a warning on this path. -/
theorem save_corrupt_no_warning :
    ¬ ((save_debate_in_excel 0 true "t1" [] "vanilla" "id1" 1 3 .corrupt).logs.any
        (fun e => e.1 == LogLevel.warning) = true) := by
  decide

/-- C5 as amended: when the existing table is present but unparsable, the
call logs the parse failure at error severity, proceeds as if the table
were empty, persists a table holding exactly the one newly appended row,
and still reports success to its caller. -/
theorem save_corrupt_recovers_one_row (topic_id : String)
    (claim_data : List (String × String)) (helper_type chat_id : String)
    (result rounds : Int) :
    save_debate_in_excel 0 true topic_id claim_data helper_type chat_id result rounds .corrupt
      = ⟨true,
         .table [⟨topic_id, dictGetD claim_data "claim" "Unknown claim",
                  helper_type, result, rounds, chat_id⟩],
         [(.error, "Error reading existing Excel file"),
          (.info, "Successfully updated debate summary")]⟩ := rfl

/-- C10 counterexample: a read/parse failure of the existing table is an
internal failure, yet the call returns `True`, not `False`: the inner
handler recovers and the function reports success. -/
theorem save_read_error_still_true :
    ¬ ((save_debate_in_excel 0 true "t1" [] "vanilla" "id1" 1 3 .corrupt).ok = false) := by
  decide

/-- C10 as amended: `save_debate_in_excel` is total on its inputs — every
internal failure is caught rather than propagated — and its boolean result
is `True` exactly when the lock is acquired within the bounded wait and
the final write succeeds; a read/parse failure of the existing table is
recovered and still reported as success. A `claim_data` mapping lacking
the key `claim` is not an error: the row is recorded with the placeholder
text `Unknown claim` via `dict.get`. -/
theorem save_total_boolean (waitNeeded : Nat) (writeOk : Bool) (topic_id : String)
    (claim_data : List (String × String)) (helper_type chat_id : String)
    (result rounds : Int) (fs : FileState) :
    (save_debate_in_excel waitNeeded writeOk topic_id claim_data helper_type chat_id
        result rounds fs).ok
      = (decide (waitNeeded ≤ lock_timeout) && writeOk)
      ∧ (save_debate_in_excel 0 true topic_id claim_data helper_type chat_id
          result rounds fs).fs
        = .table (priorRows fs ++
            [⟨topic_id, dictGetD claim_data "claim" "Unknown claim",
              helper_type, result, rounds, chat_id⟩]) := by
  constructor
  · unfold save_debate_in_excel
    by_cases h : lock_timeout < waitNeeded
    · rw [if_pos h]
      have hd : decide (waitNeeded ≤ lock_timeout) = false := by
        simp [Nat.not_le.mpr h]
      simp [hd]
    · rw [if_neg h]
      have hd : decide (waitNeeded ≤ lock_timeout) = true := by
        simp [Nat.le_of_not_lt h]
      cases fs <;> cases writeOk <;> simp [hd]
  · cases fs <;> rfl

/-- Values carried by log record attributes: the debate code passes
strings and integers through `extra={...}`. -/
inductive JVal
| str (s : String)
| num (n : Int)
deriving DecidableEq

/-- Shallow model of a `logging.LogRecord` as the formatter sees it: the
rendered message text, the rendered UTC timestamp, and the optional extra
attributes probed by `_prepare_log_dict`; an attribute is present exactly
when its field is `some`. -/
structure LogRecord where
  message : String
  timestamp : String
  msg_type : Option JVal := none
  speaker : Option JVal := none
  receiver : Option JVal := none
  sender : Option JVal := none
  round : Option JVal := none
  topic : Option JVal := none
deriving DecidableEq

/-- Ordered key-value mapping, modelling an insertion-ordered Python dict. -/
abbrev Envelope := List (String × JVal)

/-- Python `message[key] = val`: replace in place when the key exists,
append otherwise. -/
def dictInsert (d : Envelope) (k : String) (v : JVal) : Envelope :=
  if (d.lookup k).isSome then d.map (fun p => if p.1 = k then (k, v) else p)
  else d ++ [(k, v)]

/-- Python `dict.pop`-style removal of one key. -/
def dictErase (d : Envelope) (k : String) : Envelope :=
  d.filter (fun p => p.1 != k)

/-- Python `getattr(record, name)` restricted to the structured extra
attributes the formatter probes; other names are absent. -/
def recordAttr (r : LogRecord) (a : String) : Option JVal :=
  if a = "msg_type" then r.msg_type
  else if a = "speaker" then r.speaker
  else if a = "receiver" then r.receiver
  else if a = "sender" then r.sender
  else if a = "round" then r.round
  else if a = "topic" then r.topic
  else none

/-- The `always_include` dict of `_prepare_log_dict` (log_main.py lines
21-24): rendered message text and ISO timestamp. -/
def alwaysInclude (r : LogRecord) : Envelope :=
  [("message", .str r.message), ("timestamp", .str r.timestamp)]

/-- The first loop of `_prepare_log_dict` (lines 27-31): for each declared
output key, draw from `always_include` (popping the source) when the
source names a computed value, else from the record attribute; a source
that is neither raises `AttributeError`, modelled as `none`. -/
def fmtLoop (r : LogRecord) :
    List (String × String) → Envelope → Envelope → Option (Envelope × Envelope)
  | [], msg, ai => some (msg, ai)
  | (key, src) :: rest, msg, ai =>
    match ai.lookup src with
    | some x => fmtLoop r rest (dictInsert msg key x) (dictErase ai src)
    | none =>
      match recordAttr r src with
      | some x => fmtLoop r rest (dictInsert msg key x) ai
      | none => none

/-- The fixed enumeration of extra actor attributes probed by the second
loop of `_prepare_log_dict` (line 34). -/
def extraAttrs : List String :=
  ["msg_type", "speaker", "receiver", "sender", "round", "topic"]

/-- One iteration of the second loop (lines 34-36): add the attribute when
it is present on the record and its name is not already an emitted key. -/
def extraStep (r : LogRecord) (m : Envelope) (attr : String) : Envelope :=
  match recordAttr r attr with
  | some x => if (m.lookup attr).isSome then m else dictInsert m attr x
  | none => m

/-- The second loop of `_prepare_log_dict` over all fixed actor attributes. -/
def addExtras (r : LogRecord) (msg : Envelope) : Envelope :=
  extraAttrs.foldl (extraStep r) msg

/-- Python `message.update(always_include)` (line 38). -/
def dictUpdate (m ai : Envelope) : Envelope :=
  ai.foldl (fun acc p => dictInsert acc p.1 p.2) m

/-- The whole of `_prepare_log_dict` (log_main.py lines 20-39): declared
keys, then remaining fixed actor attributes, then the still-unemitted
computed values; `none` models an uncaught `AttributeError`. -/
def prepare_log_dict (r : LogRecord) (fmt_keys : List (String × String)) :
    Option Envelope :=
  (fmtLoop r fmt_keys [] (alwaysInclude r)).map
    (fun p => dictUpdate (addExtras r p.1) p.2)

/-- Resolution of a declared source name against the full computed-value
dict, falling back to the record attributes, as the first loop does on a
source not yet popped. -/
def resolveSource (r : LogRecord) (ai : Envelope) (src : String) : Option JVal :=
  match ai.lookup src with
  | some x => some x
  | none => recordAttr r src

/-- Stage 1 of the specified envelope shape: the declared keys in
declaration order, each paired with its resolved source value. -/
def declaredPart (r : LogRecord) (fmt_keys : List (String × String)) : Envelope :=
  fmt_keys.map (fun p => (p.1, (resolveSource r (alwaysInclude r) p.2).getD (.str "")))

/-- Stage 2 of the specified envelope shape: the fixed actor attributes
present on the record whose names were not already emitted. -/
def extrasPart (r : LogRecord) (declared : Envelope) : Envelope :=
  extraAttrs.filterMap (fun a =>
    if (declared.lookup a).isSome then none
    else (recordAttr r a).map (fun x => (a, x)))

/-- Stage 3 of the specified envelope shape: the computed values whose
source names were never declared, in their fixed order. -/
def remainingPart (r : LogRecord) (srcs : List String) : Envelope :=
  (alwaysInclude r).filter (fun p => !srcs.contains p.1)

/-- Well-formedness of a field-order specification against a record: the
declared output keys are distinct (a Python dict guarantees this), every
declared source resolves, each reserved source is declared at most once,
and the reserved output keys `message` and `timestamp` are used only for
their identically-named computed sources. -/
def wellFormedKeys (r : LogRecord) (fmt_keys : List (String × String)) : Prop :=
  (fmt_keys.map Prod.fst).Nodup
    ∧ (fmt_keys.map Prod.snd).count "message" ≤ 1
    ∧ (fmt_keys.map Prod.snd).count "timestamp" ≤ 1
    ∧ (∀ p ∈ fmt_keys, (resolveSource r (alwaysInclude r) p.2).isSome = true)
    ∧ (∀ p ∈ fmt_keys,
        (p.1 = "message" → p.2 = "message") ∧ (p.1 = "timestamp" → p.2 = "timestamp"))

instance wellFormedKeysDecidable (r : LogRecord) (fmt_keys : List (String × String)) :
    Decidable (wellFormedKeys r fmt_keys) := by
  unfold wellFormedKeys
  infer_instance

theorem lookup_isSome_iff (k : String) :
    ∀ d : Envelope, (d.lookup k).isSome = true ↔ k ∈ d.map Prod.fst := by
  intro d
  induction d with
  | nil => simp
  | cons p t ih =>
    obtain ⟨a, b⟩ := p
    by_cases h : k = a
    · subst h
      simp [List.lookup_cons]
    · have hne : (k == a) = false := beq_false_of_ne h
      simp only [List.lookup_cons, hne, List.map_cons]
      rw [ih, List.mem_cons]
      simp [h]

theorem lookup_eq_none_of_not_mem {k : String} {d : Envelope}
    (h : k ∉ d.map Prod.fst) : d.lookup k = none := by
  cases hl : d.lookup k with
  | none => rfl
  | some v =>
    exfalso
    apply h
    rw [← lookup_isSome_iff]
    rw [hl]
    rfl

theorem mem_of_lookup_isSome {k : String} {d : Envelope}
    (h : (d.lookup k).isSome = true) : k ∈ d.map Prod.fst :=
  (lookup_isSome_iff k d).mp h

theorem dictInsert_fresh {d : Envelope} {k : String} (v : JVal)
    (h : k ∉ d.map Prod.fst) : dictInsert d k v = d ++ [(k, v)] := by
  unfold dictInsert
  rw [lookup_eq_none_of_not_mem h]
  rfl

theorem dictErase_lookup_ne {s k : String} (hne : k ≠ s) :
    ∀ d : Envelope, (dictErase d s).lookup k = d.lookup k := by
  intro d
  induction d with
  | nil => rfl
  | cons p t ih =>
    obtain ⟨a, b⟩ := p
    unfold dictErase at ih ⊢
    rw [List.filter_cons]
    by_cases ha : a = s
    · subst ha
      have h1 : ((a, b).1 != a) = false := by simp
      have h2 : (k == a) = false := beq_false_of_ne hne
      simp only [h1, Bool.false_eq_true, if_false]
      rw [ih, List.lookup_cons]
      simp [h2]
    · have h1 : ((a, b).1 != s) = true := by simp [ha]
      simp only [h1, if_true]
      by_cases hak : k = a
      · subst hak
        simp [List.lookup_cons]
      · have h2 : (k == a) = false := beq_false_of_ne hak
        simp only [List.lookup_cons, h2]
        exact ih

theorem lookup_append_fresh {k a : String} (b : JVal) (hne : k ≠ a) :
    ∀ d : Envelope, (d ++ [(a, b)]).lookup k = d.lookup k := by
  intro d
  induction d with
  | nil =>
    simp [List.lookup_cons, beq_false_of_ne hne]
  | cons p t ih =>
    obtain ⟨c, v⟩ := p
    rw [List.cons_append, List.lookup_cons, List.lookup_cons]
    cases hkc : (k == c) with
    | true => rfl
    | false => exact ih

theorem fmtLoop_eq (r : LogRecord) :
    ∀ (fks : List (String × String)) (msg ai : Envelope),
      (fks.map Prod.fst).Nodup →
      (∀ k ∈ fks.map Prod.fst, k ∉ msg.map Prod.fst) →
      (∀ s ∈ ai.map Prod.fst, (fks.map Prod.snd).count s ≤ 1) →
      (∀ p ∈ fks, (resolveSource r ai p.2).isSome = true) →
      fmtLoop r fks msg ai
        = some (msg ++ fks.map (fun p => (p.1, (resolveSource r ai p.2).getD (.str ""))),
                ai.filter (fun q => !((fks.map Prod.snd).contains q.1))) := by
  intro fks
  induction fks with
  | nil =>
    intro msg ai _ _ _ _
    simp [fmtLoop]
  | cons hd rest ih =>
    obtain ⟨key, src⟩ := hd
    intro msg ai hnd hdisj hcnt hres
    have hkey : key ∉ msg.map Prod.fst := hdisj key (by simp)
    rw [List.map_cons] at hnd
    have hndr : (rest.map Prod.fst).Nodup := (List.nodup_cons.mp hnd).2
    have hkeyrest : key ∉ rest.map Prod.fst := (List.nodup_cons.mp hnd).1
    simp only [fmtLoop]
    cases hl : ai.lookup src with
    | some x =>
      have hmemsrc : src ∈ ai.map Prod.fst := by
        rw [← lookup_isSome_iff, hl]
        rfl
      have hsrc_once := hcnt src hmemsrc
      rw [List.map_cons, List.count_cons] at hsrc_once
      have hsrc_rest : src ∉ rest.map Prod.snd := by
        intro hc
        have h1 : 0 < (rest.map Prod.snd).count src := List.count_pos_iff.mpr hc
        have h2 : ((key, src).2 == src) = true := by simp
        rw [h2, if_pos rfl] at hsrc_once
        omega
      have hresolve_eq : ∀ p ∈ rest,
          resolveSource r (dictErase ai src) p.2 = resolveSource r ai p.2 := by
        intro p hp
        have hpne : p.2 ≠ src := by
          intro hc
          exact hsrc_rest (hc ▸ List.mem_map_of_mem Prod.snd hp)
        unfold resolveSource
        rw [dictErase_lookup_ne hpne]
      have hdisj2 : ∀ k ∈ rest.map Prod.fst, k ∉ (msg ++ [(key, x)]).map Prod.fst := by
        intro k hk
        rw [List.map_append]
        intro hm
        rcases List.mem_append.mp hm with hm | hm
        · exact hdisj k (List.mem_cons_of_mem _ hk) hm
        · simp only [List.map_cons, List.map_nil, List.mem_singleton] at hm
          exact hkeyrest (hm ▸ hk)
      have hcnt2 : ∀ s ∈ (dictErase ai src).map Prod.fst,
          (rest.map Prod.snd).count s ≤ 1 := by
        intro s hs
        obtain ⟨q, hq, rfl⟩ := List.mem_map.mp hs
        have hqmem : q ∈ ai := (List.mem_filter.mp hq).1
        have hqpred := (List.mem_filter.mp hq).2
        have hqs : q.1 ≠ src := by simpa using hqpred
        have hbase := hcnt q.1 (List.mem_map_of_mem Prod.fst hqmem)
        rw [List.map_cons, List.count_cons] at hbase
        have h2 : ((key, src).2 == q.1) = false := by
          simp only [beq_eq_false_iff_ne]
          intro hc
          exact hqs hc.symm
        rw [h2] at hbase
        simpa using hbase
      have hres2 : ∀ p ∈ rest,
          (resolveSource r (dictErase ai src) p.2).isSome = true := by
        intro p hp
        rw [hresolve_eq p hp]
        exact hres p (List.mem_cons_of_mem _ hp)
      dsimp only
      rw [dictInsert_fresh x hkey,
        ih (msg ++ [(key, x)]) (dictErase ai src) hndr hdisj2 hcnt2 hres2]
      congr 1
      rw [Prod.mk.injEq]
      constructor
      · rw [List.map_congr_left (fun p hp => by rw [hresolve_eq p hp] :
          ∀ p ∈ rest, (p.1, (resolveSource r (dictErase ai src) p.2).getD (.str ""))
            = (p.1, (resolveSource r ai p.2).getD (.str "")))]
        rw [List.map_cons]
        have hhead : resolveSource r ai src = some x := by
          unfold resolveSource
          rw [hl]
        rw [hhead]
        simp
      · unfold dictErase
        rw [List.filter_filter]
        apply List.filter_congr
        intro q hq
        rw [List.map_cons, List.contains_cons]
        cases hqs : (q.1 == src) <;>
          cases hqc : ((rest.map Prod.snd).contains q.1) <;>
            simp [hqs, hqc, bne]
    | none =>
      have hnosrc : src ∉ ai.map Prod.fst := by
        intro hc
        have h1 := (lookup_isSome_iff src ai).mpr hc
        rw [hl] at h1
        exact absurd h1 (by simp)
      have hx0 : (resolveSource r ai src).isSome = true := hres (key, src) (by simp)
      have hx : (recordAttr r src).isSome = true := by
        unfold resolveSource at hx0
        rw [hl] at hx0
        exact hx0
      obtain ⟨x, hx'⟩ := Option.isSome_iff_exists.mp hx
      rw [hx']
      have hdisj2 : ∀ k ∈ rest.map Prod.fst, k ∉ (msg ++ [(key, x)]).map Prod.fst := by
        intro k hk
        rw [List.map_append]
        intro hm
        rcases List.mem_append.mp hm with hm | hm
        · exact hdisj k (List.mem_cons_of_mem _ hk) hm
        · simp only [List.map_cons, List.map_nil, List.mem_singleton] at hm
          exact hkeyrest (hm ▸ hk)
      have hcnt2 : ∀ s ∈ ai.map Prod.fst, (rest.map Prod.snd).count s ≤ 1 := by
        intro s hs
        have hbase := hcnt s hs
        rw [List.map_cons, List.count_cons] at hbase
        exact le_trans (Nat.le_add_right _ _) hbase
      have hres2 : ∀ p ∈ rest, (resolveSource r ai p.2).isSome = true :=
        fun p hp => hres p (List.mem_cons_of_mem _ hp)
      dsimp only
      rw [dictInsert_fresh x hkey, ih (msg ++ [(key, x)]) ai hndr hdisj2 hcnt2 hres2]
      congr 1
      rw [Prod.mk.injEq]
      constructor
      · rw [List.map_cons]
        have hhead : resolveSource r ai src = some x := by
          unfold resolveSource
          rw [hl, hx']
        rw [hhead]
        simp
      · apply List.filter_congr
        intro q hq
        have hqs : (q.1 == src) = false := by
          rw [beq_eq_false_iff_ne]
          intro hc
          exact hnosrc (hc ▸ List.mem_map_of_mem Prod.fst hq)
        rw [List.map_cons, List.contains_cons, hqs]
        simp

theorem addExtras_go (r : LogRecord) :
    ∀ (attrs : List String) (msg : Envelope), attrs.Nodup →
      attrs.foldl (extraStep r) msg
        = msg ++ attrs.filterMap (fun a =>
            if (msg.lookup a).isSome then none
            else (recordAttr r a).map (fun x => (a, x))) := by
  intro attrs
  induction attrs with
  | nil =>
    intro msg _
    simp
  | cons a rest ih =>
    intro msg hnd
    have hndr : rest.Nodup := (List.nodup_cons.mp hnd).2
    have hanotin : a ∉ rest := (List.nodup_cons.mp hnd).1
    rw [List.foldl_cons, List.filterMap_cons]
    cases hra : recordAttr r a with
    | none =>
      have hstep : extraStep r msg a = msg := by
        unfold extraStep
        rw [hra]
      rw [hstep, ih msg hndr]
      cases hc : (msg.lookup a).isSome <;> simp [hc]
    | some x =>
      cases hc : (msg.lookup a).isSome with
      | true =>
        have hstep : extraStep r msg a = msg := by
          unfold extraStep
          rw [hra]
          dsimp only
          rw [if_pos hc]
        rw [hstep, ih msg hndr]
        simp [hc]
      | false =>
        have hnotmem : a ∉ msg.map Prod.fst := by
          intro hm
          rw [← lookup_isSome_iff] at hm
          rw [hm] at hc
          exact absurd hc (by simp)
        have hstep : extraStep r msg a = msg ++ [(a, x)] := by
          unfold extraStep
          rw [hra]
          dsimp only
          rw [if_neg (by simp [hc])]
          exact dictInsert_fresh x hnotmem
        rw [hstep, ih _ hndr]
        have hlook : ∀ a' ∈ rest,
            (if ((msg ++ [(a, x)]).lookup a').isSome then none
             else (recordAttr r a').map (fun y => (a', y)))
              = (if (msg.lookup a').isSome then none
                 else (recordAttr r a').map (fun y => (a', y))) := by
          intro a' ha'
          have hne : a' ≠ a := fun hc2 => hanotin (hc2 ▸ ha')
          rw [lookup_append_fresh x hne]
        rw [List.filterMap_congr hlook]
        simp [hc, hra]

theorem dictUpdate_fresh :
    ∀ (ai msg : Envelope), (∀ p ∈ ai, p.1 ∉ msg.map Prod.fst) →
      (ai.map Prod.fst).Nodup →
      dictUpdate msg ai = msg ++ ai := by
  intro ai
  induction ai with
  | nil =>
    intro msg _ _
    simp [dictUpdate]
  | cons p rest ih =>
    intro msg hfresh hnd
    unfold dictUpdate at ih ⊢
    rw [List.foldl_cons, dictInsert_fresh _ (hfresh p (by simp))]
    rw [List.map_cons] at hnd
    rw [ih (msg ++ [(p.1, p.2)]) ?fresh (List.nodup_cons.mp hnd).2]
    · simp
    case fresh =>
      intro q hq
      rw [List.map_append]
      intro hm
      rcases List.mem_append.mp hm with hm | hm
      · exact hfresh q (List.mem_cons_of_mem _ hq) hm
      · simp only [List.map_cons, List.map_nil, List.mem_singleton] at hm
        exact (List.nodup_cons.mp hnd).1 (hm ▸ List.mem_map_of_mem Prod.fst hq)

theorem declaredPart_keys (r : LogRecord) (fks : List (String × String)) :
    (declaredPart r fks).map Prod.fst = fks.map Prod.fst := by
  unfold declaredPart
  rw [List.map_map]
  exact List.map_congr_left (fun p _ => rfl)

theorem mem_extrasPart {r : LogRecord} {declared : Envelope} {q : String × JVal}
    (h : q ∈ extrasPart r declared) :
    q.1 ∈ extraAttrs ∧ (declared.lookup q.1).isSome = false
      ∧ recordAttr r q.1 = some q.2 := by
  obtain ⟨a, ha, hfa⟩ := List.mem_filterMap.mp h
  by_cases hc : (declared.lookup a).isSome = true
  · rw [if_pos hc] at hfa
    exact absurd hfa (by simp)
  · rw [if_neg hc] at hfa
    cases hra : recordAttr r a with
    | none =>
      rw [hra] at hfa
      exact absurd hfa (by simp)
    | some x =>
      rw [hra] at hfa
      simp only [Option.map_some'] at hfa
      obtain rfl := Option.some.inj hfa
      have hc2 : (declared.lookup a).isSome = false := by
        revert hc
        cases (declared.lookup a).isSome <;> simp
      exact ⟨ha, hc2, hra⟩

theorem extrasPart_keys_sublist (r : LogRecord) (declared : Envelope) :
    ∀ attrs : List String,
      ((attrs.filterMap (fun a =>
          if (declared.lookup a).isSome then none
          else (recordAttr r a).map (fun x => (a, x)))).map Prod.fst).Sublist attrs := by
  intro attrs
  induction attrs with
  | nil => simp
  | cons a rest ih =>
    rw [List.filterMap_cons]
    cases hfa : (if (declared.lookup a).isSome then none
        else (recordAttr r a).map (fun x => (a, x))) with
    | none => exact ih.cons a
    | some q =>
      have hq1 : q.1 = a := by
        by_cases hc : (declared.lookup a).isSome = true
        · rw [if_pos hc] at hfa
          exact absurd hfa (by simp)
        · rw [if_neg hc] at hfa
          cases hra : recordAttr r a with
          | none =>
            rw [hra] at hfa
            exact absurd hfa (by simp)
          | some x =>
            rw [hra] at hfa
            simp only [Option.map_some'] at hfa
            obtain rfl := Option.some.inj hfa
            rfl
      rw [List.map_cons, hq1]
      exact ih.cons₂ a

theorem extras_key_not_declared {r : LogRecord} {declared : Envelope} {q : String × JVal}
    (hq : q ∈ extrasPart r declared) : q.1 ∉ declared.map Prod.fst := by
  intro hm
  have h1 := (mem_extrasPart hq).2.1
  rw [← lookup_isSome_iff] at hm
  rw [hm] at h1
  exact absurd h1 (by simp)

theorem rem_key_not_in (r : LogRecord) (fks : List (String × String))
    (hmt : ∀ p ∈ fks, (p.1 = "message" → p.2 = "message")
        ∧ (p.1 = "timestamp" → p.2 = "timestamp")) :
    ∀ p ∈ remainingPart r (fks.map Prod.snd),
      p.1 ∉ (declaredPart r fks ++ extrasPart r (declaredPart r fks)).map Prod.fst := by
  intro p hp
  have hpmem : p ∈ alwaysInclude r := (List.mem_filter.mp hp).1
  have hppred := (List.mem_filter.mp hp).2
  have hpcontains : ((fks.map Prod.snd).contains p.1) = false := by
    simpa using hppred
  have hpkey : p.1 = "message" ∨ p.1 = "timestamp" := by
    unfold alwaysInclude at hpmem
    rcases List.mem_cons.mp hpmem with h1 | h1
    · left
      rw [h1]
    · rcases List.mem_cons.mp h1 with h2 | h2
      · right
        rw [h2]
      · exact absurd h2 (List.not_mem_nil p)
  rw [List.map_append]
  intro hmem
  rcases List.mem_append.mp hmem with hmem | hmem
  · rw [declaredPart_keys] at hmem
    obtain ⟨q, hq, hq1⟩ := List.mem_map.mp hmem
    rcases hpkey with hk | hk
    · have hq2 : q.2 = "message" := (hmt q hq).1 (by rw [hq1, hk])
      have hms : "message" ∈ fks.map Prod.snd := hq2 ▸ List.mem_map_of_mem Prod.snd hq
      have hct : (fks.map Prod.snd).contains "message" = true := by simpa using hms
      rw [hk, hct] at hpcontains
      exact absurd hpcontains (by simp)
    · have hq2 : q.2 = "timestamp" := (hmt q hq).2 (by rw [hq1, hk])
      have hms : "timestamp" ∈ fks.map Prod.snd := hq2 ▸ List.mem_map_of_mem Prod.snd hq
      have hct : (fks.map Prod.snd).contains "timestamp" = true := by simpa using hms
      rw [hk, hct] at hpcontains
      exact absurd hpcontains (by simp)
  · obtain ⟨q, hq, hq1⟩ := List.mem_map.mp hmem
    have h3 := (mem_extrasPart hq).1
    rw [hq1] at h3
    rcases hpkey with hk | hk <;> rw [hk] at h3 <;> exact absurd h3 (by decide)

theorem rem_key_cases {r : LogRecord} {srcs : List String} {p : String × JVal}
    (hp : p ∈ remainingPart r srcs) : p.1 = "message" ∨ p.1 = "timestamp" := by
  have hpmem : p ∈ alwaysInclude r := (List.mem_filter.mp hp).1
  unfold alwaysInclude at hpmem
  rcases List.mem_cons.mp hpmem with h1 | h1
  · left
    rw [h1]
  · rcases List.mem_cons.mp h1 with h2 | h2
    · right
      rw [h2]
    · exact absurd h2 (List.not_mem_nil p)

theorem alwaysInclude_lookup_extra (r : LogRecord) {a : String} (ha : a ∈ extraAttrs) :
    (alwaysInclude r).lookup a = none := by
  apply lookup_eq_none_of_not_mem
  intro hm
  unfold alwaysInclude at hm
  simp only [List.map_cons, List.map_nil] at hm
  unfold extraAttrs at ha
  rcases List.mem_cons.mp hm with h1 | h1
  · subst h1
    exact absurd ha (by decide)
  · rcases List.mem_cons.mp h1 with h2 | h2
    · subst h2
      exact absurd ha (by decide)
    · exact absurd h2 (List.not_mem_nil a)

theorem resolveSource_extra (r : LogRecord) {a : String} (ha : a ∈ extraAttrs) :
    resolveSource r (alwaysInclude r) a = recordAttr r a := by
  unfold resolveSource
  rw [alwaysInclude_lookup_extra r ha]

theorem prepare_decomp (r : LogRecord) (fks : List (String × String))
    (hw : wellFormedKeys r fks) :
    prepare_log_dict r fks
      = some (declaredPart r fks ++ extrasPart r (declaredPart r fks)
          ++ remainingPart r (fks.map Prod.snd)) := by
  obtain ⟨hnd, hcm, hct, hres, hmt⟩ := hw
  unfold prepare_log_dict
  rw [fmtLoop_eq r fks [] (alwaysInclude r) hnd (by simp) ?hcnt hres]
  case hcnt =>
    intro s hs
    unfold alwaysInclude at hs
    simp only [List.map_cons, List.map_nil] at hs
    rcases List.mem_cons.mp hs with rfl | hs
    · exact hcm
    · rcases List.mem_cons.mp hs with rfl | hs
      · exact hct
      · exact absurd hs (List.not_mem_nil s)
  simp only [Option.map_some']
  congr 1
  rw [List.nil_append]
  have hmap : fks.map (fun p => (p.1, (resolveSource r (alwaysInclude r) p.2).getD (.str "")))
      = declaredPart r fks := rfl
  have hrem : (alwaysInclude r).filter (fun q => !((fks.map Prod.snd).contains q.1))
      = remainingPart r (fks.map Prod.snd) := rfl
  rw [hmap, hrem]
  have haddex : addExtras r (declaredPart r fks)
      = declaredPart r fks ++ extrasPart r (declaredPart r fks) := by
    unfold addExtras
    rw [addExtras_go r extraAttrs (declaredPart r fks) (by decide)]
    rfl
  rw [haddex]
  apply dictUpdate_fresh
  · exact rem_key_not_in r fks hmt
  · exact List.Nodup.sublist ((List.filter_sublist _).map Prod.fst)
      (by show (["message", "timestamp"] : List String).Nodup; decide)

theorem prepare_keys_nodup (r : LogRecord) (fks : List (String × String))
    (hw : wellFormedKeys r fks) :
    ((declaredPart r fks ++ extrasPart r (declaredPart r fks)
        ++ remainingPart r (fks.map Prod.snd)).map Prod.fst).Nodup := by
  obtain ⟨hnd, hcm, hct, hres, hmt⟩ := hw
  rw [List.map_append, List.map_append, List.nodup_append]
  refine ⟨?_, ?_, ?_⟩
  · rw [List.nodup_append]
    refine ⟨?_, ?_, ?_⟩
    · rw [declaredPart_keys]
      exact hnd
    · exact List.Nodup.sublist
        (extrasPart_keys_sublist r (declaredPart r fks) extraAttrs) (by decide)
    · intro a ha hb
      obtain ⟨q, hq, hq1⟩ := List.mem_map.mp hb
      exact extras_key_not_declared hq (hq1 ▸ ha)
  · exact List.Nodup.sublist ((List.filter_sublist _).map Prod.fst)
      (by show (["message", "timestamp"] : List String).Nodup; decide)
  · intro a ha hb
    obtain ⟨p, hp, hp1⟩ := List.mem_map.mp hb
    exact rem_key_not_in r fks hmt p hp
      (by rw [List.map_append, hp1]; exact ha)

/-- A record with message text, timestamp and one actor attribute, used as
a concrete input below. -/
def rCex : LogRecord :=
  { message := "hello", timestamp := "T", speaker := some (.str "pro") }

/-- A record carrying a channel tag and two actor attributes, used as a
concrete input below. -/
def rWitness : LogRecord :=
  { message := "hello", timestamp := "T", msg_type := some (.str "main debate"),
    speaker := some (.str "pro"), round := some (.num 3) }

/-- C6 counterexample: with the field-order specification that declares
the output key `message` drawing from the attribute `speaker`, the
formatter does not emit the three stages as claimed: the final `update`
overwrites the declared key in place with the computed message text, so
the declared key does not carry the named attribute value and the envelope
differs from the claimed stage concatenation. -/
theorem prepare_declared_value_cex :
    prepare_log_dict rCex [("message", "speaker")]
        = some [("message", .str "hello"), ("speaker", .str "pro"),
                ("timestamp", .str "T")]
      ∧ prepare_log_dict rCex [("message", "speaker")]
        ≠ some (declaredPart rCex [("message", "speaker")]
            ++ extrasPart rCex (declaredPart rCex [("message", "speaker")])
            ++ remainingPart rCex ([("message", "speaker")].map Prod.snd)) := by
  constructor
  · decide
  · decide

/-- C6 as amended: for every record and every well-formed field-order
specification (distinct declared keys, resolvable sources, each reserved
computed source declared at most once, and the output keys `message` and
`timestamp` used only for their identically-named sources), the formatter
emits the declared keys first, each drawn from the matching computed value
or else the named attribute, then the fixed actor attributes present on
the record and not yet emitted, in their fixed order, then the remaining
computed values, and no key is ever emitted twice. -/
theorem prepare_log_dict_three_stage (r : LogRecord) (fks : List (String × String))
    (hw : wellFormedKeys r fks) :
    prepare_log_dict r fks
        = some (declaredPart r fks ++ extrasPart r (declaredPart r fks)
            ++ remainingPart r (fks.map Prod.snd))
      ∧ ((declaredPart r fks ++ extrasPart r (declaredPart r fks)
            ++ remainingPart r (fks.map Prod.snd)).map Prod.fst).Nodup :=
  ⟨prepare_decomp r fks hw, prepare_keys_nodup r fks hw⟩

theorem prepare_log_dict_three_stage_witness :
    wellFormedKeys rWitness [("message", "message"), ("timestamp", "timestamp")]
      ∧ prepare_log_dict rWitness [("message", "message"), ("timestamp", "timestamp")]
        = some [("message", .str "hello"), ("timestamp", .str "T"),
                ("msg_type", .str "main debate"), ("speaker", .str "pro"),
                ("round", .num 3)] := by
  have h := prepare_log_dict_three_stage rWitness
    [("message", "message"), ("timestamp", "timestamp")] (by decide)
  exact ⟨by decide, h.1.trans (by decide)⟩

/-- C7 counterexample: a field-order specification may rename the computed
message text to a different output key, in which case the formatted
envelope does not contain the key `message` at all, contradicting the
claim for arbitrary field-order specifications. -/
theorem prepare_missing_message_cex :
    ((prepare_log_dict rCex [("text", "message")]).getD []).lookup "message" = none
      ∧ (prepare_log_dict rCex [("text", "message")]).isSome = true := by
  constructor
  · decide
  · decide

/-- C7 as amended: for every record and every well-formed field-order
specification that additionally maps the reserved computed sources only to
identically-named output keys and uses actor-attribute names as output
keys only for those same attributes, the formatted envelope contains the
keys `message` and `timestamp`, plus exactly those fixed actor attributes
that were set on the originating record. -/
theorem prepare_log_dict_min_keys (r : LogRecord) (fks : List (String × String))
    (hw : wellFormedKeys r fks)
    (h5 : ∀ p ∈ fks, p.1 ∈ extraAttrs → p.2 = p.1)
    (h6 : ∀ p ∈ fks, (p.2 = "message" → p.1 = "message")
        ∧ (p.2 = "timestamp" → p.1 = "timestamp")) :
    ∃ env, prepare_log_dict r fks = some env
      ∧ "message" ∈ env.map Prod.fst
      ∧ "timestamp" ∈ env.map Prod.fst
      ∧ ∀ a ∈ extraAttrs, (a ∈ env.map Prod.fst ↔ (recordAttr r a).isSome = true) := by
  have hres := hw.2.2.2.1
  refine ⟨_, prepare_decomp r fks hw, ?_, ?_, ?_⟩
  · by_cases hm : "message" ∈ fks.map Prod.snd
    · obtain ⟨q, hq, hq2⟩ := List.mem_map.mp hm
      have hq1 : q.1 = "message" := (h6 q hq).1 hq2
      rw [List.map_append]
      apply List.mem_append.mpr
      left
      rw [List.map_append]
      apply List.mem_append.mpr
      left
      rw [declaredPart_keys]
      exact hq1 ▸ List.mem_map_of_mem Prod.fst hq
    · rw [List.map_append]
      apply List.mem_append.mpr
      right
      have hcont : ((fks.map Prod.snd).contains "message") = false := by
        cases hcv : ((fks.map Prod.snd).contains "message")
        · rfl
        · exact absurd (by simpa using hcv) hm
      have hmem : ("message", JVal.str r.message) ∈ remainingPart r (fks.map Prod.snd) := by
        unfold remainingPart
        rw [List.mem_filter]
        refine ⟨List.mem_cons_self _ _, ?_⟩
        rw [hcont]
        rfl
      exact List.mem_map_of_mem Prod.fst hmem
  · by_cases hm : "timestamp" ∈ fks.map Prod.snd
    · obtain ⟨q, hq, hq2⟩ := List.mem_map.mp hm
      have hq1 : q.1 = "timestamp" := (h6 q hq).2 hq2
      rw [List.map_append]
      apply List.mem_append.mpr
      left
      rw [List.map_append]
      apply List.mem_append.mpr
      left
      rw [declaredPart_keys]
      exact hq1 ▸ List.mem_map_of_mem Prod.fst hq
    · rw [List.map_append]
      apply List.mem_append.mpr
      right
      have hcont : ((fks.map Prod.snd).contains "timestamp") = false := by
        cases hcv : ((fks.map Prod.snd).contains "timestamp")
        · rfl
        · exact absurd (by simpa using hcv) hm
      have hmem : ("timestamp", JVal.str r.timestamp) ∈ remainingPart r (fks.map Prod.snd) := by
        unfold remainingPart
        rw [List.mem_filter]
        refine ⟨List.mem_cons_of_mem _ (List.mem_cons_self _ _), ?_⟩
        rw [hcont]
        rfl
      exact List.mem_map_of_mem Prod.fst hmem
  · intro a ha
    rw [List.map_append, List.map_append]
    constructor
    · intro hmem
      rcases List.mem_append.mp hmem with hmem | hmem
      · rcases List.mem_append.mp hmem with hmem | hmem
        · rw [declaredPart_keys] at hmem
          obtain ⟨q, hq, hq1⟩ := List.mem_map.mp hmem
          have hq2 : q.2 = a := by
            rw [h5 q hq (by rw [hq1]; exact ha), hq1]
          have hr := hres q hq
          rw [hq2, resolveSource_extra r ha] at hr
          exact hr
        · obtain ⟨q, hq, hq1⟩ := List.mem_map.mp hmem
          have h3 := (mem_extrasPart hq).2.2
          rw [hq1] at h3
          rw [h3]
          rfl
      · obtain ⟨q, hq, hq1⟩ := List.mem_map.mp hmem
        have hpk := rem_key_cases hq
        rcases hpk with hk | hk
        · have hak : a = "message" := by rw [← hq1, hk]
          rw [hak] at ha
          exact absurd ha (by decide)
        · have hak : a = "timestamp" := by rw [← hq1, hk]
          rw [hak] at ha
          exact absurd ha (by decide)
    · intro hsome
      by_cases hdecl : a ∈ fks.map Prod.fst
      · apply List.mem_append.mpr
        left
        apply List.mem_append.mpr
        left
        rw [declaredPart_keys]
        exact hdecl
      · apply List.mem_append.mpr
        left
        apply List.mem_append.mpr
        right
        obtain ⟨x, hx⟩ := Option.isSome_iff_exists.mp hsome
        have hnotmem : a ∉ (declaredPart r fks).map Prod.fst := by
          rw [declaredPart_keys]
          exact hdecl
        have hlookup : (declaredPart r fks).lookup a = none :=
          lookup_eq_none_of_not_mem hnotmem
        have hq : (a, x) ∈ extrasPart r (declaredPart r fks) := by
          apply List.mem_filterMap.mpr
          refine ⟨a, ha, ?_⟩
          rw [hlookup, hx]
          rfl
        exact List.mem_map_of_mem Prod.fst hq

theorem prepare_log_dict_min_keys_witness :
    ∃ env, prepare_log_dict rWitness [] = some env
      ∧ "message" ∈ env.map Prod.fst
      ∧ "timestamp" ∈ env.map Prod.fst
      ∧ ∀ a ∈ extraAttrs, (a ∈ env.map Prod.fst ↔ (recordAttr rWitness a).isSome = true) :=
  prepare_log_dict_min_keys rWitness [] (by decide) (by decide) (by decide)

/-- Translation of `MainDebateFilter.filter` (log_main.py lines 52-55):
accept exactly the records whose `msg_type` attribute equals the literal
string tag; a missing attribute compares unequal (Python `None`). -/
def MainDebateFilter.filter (r : LogRecord) : Bool :=
  r.msg_type == some (JVal.str "main debate")

/-- Translation of `PersuadorHelperFilter.filter` (log_main.py lines
57-60). -/
def PersuadorHelperFilter.filter (r : LogRecord) : Bool :=
  r.msg_type == some (JVal.str "persuador_helper")

/-- The multiplexer: each named channel carries a predicate; an event is
delivered to exactly the channels whose predicate accepts it. -/
def routeEvent (channels : List (String × (LogRecord → Bool))) (r : LogRecord) :
    List String :=
  (channels.filter (fun c => c.2 r)).map Prod.fst

/-- The two tag-filtered channels configured for the debate logger. -/
def debateChannels : List (String × (LogRecord → Bool)) :=
  [("main_debate", MainDebateFilter.filter),
   ("persuador_helper", PersuadorHelperFilter.filter)]

/-- C8: every event is delivered to exactly the channels whose predicate
accepts its tag; each predicate accepts exactly equality with its literal
tag; an event with no tag is delivered nowhere (and causes no error); the
two channels are mutually exclusive, so a channel filtered to
`persuador_helper` never receives a `main debate` event and conversely. -/
theorem log_routing_exact (r : LogRecord) :
    routeEvent debateChannels r
        = (if MainDebateFilter.filter r then ["main_debate"] else [])
          ++ (if PersuadorHelperFilter.filter r then ["persuador_helper"] else [])
      ∧ (MainDebateFilter.filter r = true ↔ r.msg_type = some (.str "main debate"))
      ∧ (PersuadorHelperFilter.filter r = true ↔ r.msg_type = some (.str "persuador_helper"))
      ∧ (r.msg_type = none → routeEvent debateChannels r = [])
      ∧ (r.msg_type = some (.str "main debate") →
          routeEvent debateChannels r = ["main_debate"])
      ∧ (r.msg_type = some (.str "persuador_helper") →
          routeEvent debateChannels r = ["persuador_helper"])
      ∧ ¬(MainDebateFilter.filter r = true ∧ PersuadorHelperFilter.filter r = true) := by
  have hmain : MainDebateFilter.filter r = true ↔ r.msg_type = some (.str "main debate") := by
    unfold MainDebateFilter.filter
    exact beq_iff_eq
  have hpers : PersuadorHelperFilter.filter r = true
      ↔ r.msg_type = some (.str "persuador_helper") := by
    unfold PersuadorHelperFilter.filter
    exact beq_iff_eq
  have hroute : routeEvent debateChannels r
      = (if MainDebateFilter.filter r then ["main_debate"] else [])
        ++ (if PersuadorHelperFilter.filter r then ["persuador_helper"] else []) := by
    unfold routeEvent debateChannels
    cases h1 : MainDebateFilter.filter r <;> cases h2 : PersuadorHelperFilter.filter r <;>
      simp [List.filter_cons, h1, h2]
  refine ⟨hroute, hmain, hpers, ?_, ?_, ?_, ?_⟩
  · intro hn
    rw [hroute]
    have h1 : MainDebateFilter.filter r = false := by
      unfold MainDebateFilter.filter
      rw [hn]
      rfl
    have h2 : PersuadorHelperFilter.filter r = false := by
      unfold PersuadorHelperFilter.filter
      rw [hn]
      rfl
    rw [h1, h2]
    rfl
  · intro hn
    rw [hroute]
    have h1 : MainDebateFilter.filter r = true := hmain.mpr hn
    have h2 : PersuadorHelperFilter.filter r = false := by
      unfold PersuadorHelperFilter.filter
      rw [hn]
      rfl
    rw [h1, h2]
    rfl
  · intro hn
    rw [hroute]
    have h1 : MainDebateFilter.filter r = false := by
      unfold MainDebateFilter.filter
      rw [hn]
      rfl
    have h2 : PersuadorHelperFilter.filter r = true := hpers.mpr hn
    rw [h1, h2]
    rfl
  · rintro ⟨h1, h2⟩
    rw [hmain] at h1
    rw [hpers] at h2
    rw [h1] at h2
    exact absurd (Option.some.inj h2) (by decide)

theorem log_routing_exact_witness :
    routeEvent debateChannels rWitness = ["main_debate"]
      ∧ routeEvent debateChannels { rWitness with msg_type := none } = [] :=
  ⟨(log_routing_exact rWitness).2.2.2.2.1 rfl,
   (log_routing_exact { rWitness with msg_type := none }).2.2.2.1 rfl⟩

/-- Progress of one caller of `save_debate_in_excel` through its critical
section: not yet started, holding the lock, holding the lock with the
table read into its dataframe, or finished. -/
inductive PState
| idle
| acquired
| readDone (localRows : List Row)
| done
deriving DecidableEq

/-- Global state of `n` concurrent callers sharing the Excel table and its
lock file: the current lock holder, the table contents, and each caller's
progress. -/
structure StoreSys (n : Nat) where
  lock : Option (Fin n)
  table : List Row
  pc : Fin n → PState

/-- Interleaving semantics of `n` concurrent `save_debate_in_excel` calls,
caller `i` appending the row `recs i`. The `FileLock` guarantees mutual
exclusion, so acquiring requires the lock to be free, and the read and
write of the critical section happen only while holding it. -/
inductive SaveStep {n : Nat} (recs : Fin n → Row) :
    StoreSys n → StoreSys n → Prop
| acquire (i : Fin n) (s : StoreSys n) (hl : s.lock = none) (hpc : s.pc i = .idle) :
    SaveStep recs s ⟨some i, s.table, Function.update s.pc i .acquired⟩
| readTable (i : Fin n) (s : StoreSys n) (hl : s.lock = some i)
    (hpc : s.pc i = .acquired) :
    SaveStep recs s ⟨s.lock, s.table, Function.update s.pc i (.readDone s.table)⟩
| writeTable (i : Fin n) (s : StoreSys n) (l : List Row) (hl : s.lock = some i)
    (hpc : s.pc i = .readDone l) :
    SaveStep recs s ⟨none, l ++ [recs i], Function.update s.pc i .done⟩

/-- Initial state: no lock holder, empty table, every caller idle. -/
def initStore (n : Nat) : StoreSys n := ⟨none, [], fun _ => .idle⟩

/-- Invariant of the interleaving semantics: the table is exactly the rows
of the finished callers, in completion order, with no duplicates; any
caller inside its critical section holds the lock; and a caller that has
read the table holds a copy equal to the current table. -/
def StoreInv {n : Nat} (recs : Fin n → Row) (s : StoreSys n) : Prop :=
  ∃ l : List (Fin n), l.Nodup ∧ s.table = l.map recs
    ∧ (∀ i, s.pc i = .done ↔ i ∈ l)
    ∧ (∀ i, s.pc i = .acquired → s.lock = some i)
    ∧ (∀ i lr, s.pc i = .readDone lr → s.lock = some i ∧ lr = s.table)

theorem inv_init {n : Nat} (recs : Fin n → Row) : StoreInv recs (initStore n) := by
  refine ⟨[], List.nodup_nil, rfl, ?_, ?_, ?_⟩
  · intro i
    simp [initStore]
  · intro i h
    simp [initStore] at h
  · intro i lr h
    simp [initStore] at h

theorem inv_step {n : Nat} {recs : Fin n → Row} {s t : StoreSys n}
    (hinv : StoreInv recs s) (hstep : SaveStep recs s t) : StoreInv recs t := by
  obtain ⟨l, hnd, htab, hdone, hacq, hread⟩ := hinv
  cases hstep with
  | acquire i _ hl hpc =>
    refine ⟨l, hnd, htab, ?_, ?_, ?_⟩
    · intro j
      by_cases hij : j = i
      · subst hij
        simp only [Function.update_same]
        constructor
        · intro h
          simp at h
        · intro hmem
          have h2 := (hdone j).mpr hmem
          rw [hpc] at h2
          simp at h2
      · simp only [Function.update_noteq hij]
        exact hdone j
    · intro j hj
      by_cases hij : j = i
      · subst hij
        rfl
      · dsimp only at hj
        rw [Function.update_noteq hij] at hj
        have h2 := hacq j hj
        rw [hl] at h2
        simp at h2
    · intro j lr hj
      by_cases hij : j = i
      · subst hij
        dsimp only at hj
        rw [Function.update_same] at hj
        simp at hj
      · dsimp only at hj
        rw [Function.update_noteq hij] at hj
        have h2 := (hread j lr hj).1
        rw [hl] at h2
        simp at h2
  | readTable i _ hl hpc =>
    refine ⟨l, hnd, htab, ?_, ?_, ?_⟩
    · intro j
      by_cases hij : j = i
      · subst hij
        simp only [Function.update_same]
        constructor
        · intro h
          simp at h
        · intro hmem
          have h2 := (hdone j).mpr hmem
          rw [hpc] at h2
          simp at h2
      · simp only [Function.update_noteq hij]
        exact hdone j
    · intro j hj
      by_cases hij : j = i
      · subst hij
        exact hl
      · dsimp only at hj
        rw [Function.update_noteq hij] at hj
        have h2 := hacq j hj
        rw [hl] at h2
        exact absurd (Option.some.inj h2).symm hij
    · intro j lr hj
      by_cases hij : j = i
      · subst hij
        dsimp only at hj
        rw [Function.update_same] at hj
        have hlr : lr = s.table := (PState.readDone.inj hj).symm
        exact ⟨hl, hlr⟩
      · dsimp only at hj
        rw [Function.update_noteq hij] at hj
        exact hread j lr hj
  | writeTable i _ lw hl hpc =>
    have hlw := hread i lw hpc
    have hnotin : i ∉ l := by
      intro hc
      have h2 := (hdone i).mpr hc
      rw [hpc] at h2
      simp at h2
    refine ⟨l ++ [i], ?_, ?_, ?_, ?_, ?_⟩
    · rw [List.nodup_append]
      refine ⟨hnd, List.nodup_singleton i, ?_⟩
      intro a ha hb
      simp only [List.mem_singleton] at hb
      subst hb
      exact hnotin ha
    · rw [List.map_append]
      simp [hlw.2, htab]
    · intro j
      by_cases hij : j = i
      · subst hij
        simp only [Function.update_same]
        simp
      · simp only [Function.update_noteq hij]
        rw [hdone j]
        simp [hij]
    · intro j hj
      by_cases hij : j = i
      · subst hij
        dsimp only at hj
        rw [Function.update_same] at hj
        simp at hj
      · dsimp only at hj
        rw [Function.update_noteq hij] at hj
        have h2 := hacq j hj
        rw [hlw.1] at h2
        exact absurd (Option.some.inj h2).symm hij
    · intro j lr hj
      by_cases hij : j = i
      · subst hij
        dsimp only at hj
        rw [Function.update_same] at hj
        simp at hj
      · dsimp only at hj
        rw [Function.update_noteq hij] at hj
        have h2 := (hread j lr hj).1
        rw [hlw.1] at h2
        exact absurd (Option.some.inj h2).symm hij

theorem inv_reach {n : Nat} {recs : Fin n → Row} {s : StoreSys n}
    (h : Relation.ReflTransGen (SaveStep recs) (initStore n) s) : StoreInv recs s := by
  induction h with
  | refl => exact inv_init recs
  | tail _ hstep ih => exact inv_step ih hstep

/-- C9: under any interleaving of `n` concurrent callers respecting the
lock file — mutually exclusive critical sections, read and write both
inside the held section — once every caller has finished, the table
contains exactly `n` rows, in completion order, and with injective (all
distinct) records no row is duplicated or lost. -/
theorem store_appends_serialized {n : Nat} (recs : Fin n → Row) (s : StoreSys n)
    (hreach : Relation.ReflTransGen (SaveStep recs) (initStore n) s)
    (hdone : ∀ i, s.pc i = PState.done) :
    s.table.length = n
      ∧ (Function.Injective recs → s.table.Nodup ∧ ∀ i, recs i ∈ s.table) := by
  obtain ⟨l, hnd, htab, hdoneIff, -, -⟩ := inv_reach hreach
  have hall : ∀ i, i ∈ l := fun i => (hdoneIff i).mp (hdone i)
  have hlen : l.length = n := by
    have h1 : l.toFinset = Finset.univ :=
      Finset.eq_univ_iff_forall.mpr (fun i => List.mem_toFinset.mpr (hall i))
    have h2 := List.toFinset_card_of_nodup hnd
    rw [h1, Finset.card_univ, Fintype.card_fin] at h2
    exact h2.symm
  constructor
  · rw [htab, List.length_map, hlen]
  · intro hinj
    constructor
    · rw [htab]
      exact hnd.map hinj
    · intro i
      rw [htab]
      exact List.mem_map_of_mem recs (hall i)

/-- A first sample row for the concurrency witness. -/
def rowA : Row := ⟨"t1", "c1", "vanilla", 1, 3, "id1"⟩

/-- A second, distinct sample row for the concurrency witness. -/
def rowB : Row := ⟨"t2", "c2", "fallacy", 0, 5, "id2"⟩

/-- Two concurrent callers with distinct records. -/
def recs2 : Fin 2 → Row := fun i => if i = 0 then rowA else rowB

def st1 : StoreSys 2 :=
  ⟨some 0, (initStore 2).table, Function.update (initStore 2).pc 0 .acquired⟩

def st2 : StoreSys 2 := ⟨st1.lock, st1.table, Function.update st1.pc 0 (.readDone st1.table)⟩

def st3 : StoreSys 2 := ⟨none, st1.table ++ [recs2 0], Function.update st2.pc 0 .done⟩

def st4 : StoreSys 2 := ⟨some 1, st3.table, Function.update st3.pc 1 .acquired⟩

def st5 : StoreSys 2 := ⟨st4.lock, st4.table, Function.update st4.pc 1 (.readDone st4.table)⟩

def st6 : StoreSys 2 := ⟨none, st4.table ++ [recs2 1], Function.update st5.pc 1 .done⟩

theorem chain_reach : Relation.ReflTransGen (SaveStep recs2) (initStore 2) st6 := by
  have h1 : SaveStep recs2 (initStore 2) st1 :=
    SaveStep.acquire 0 (initStore 2) rfl rfl
  have h2 : SaveStep recs2 st1 st2 := SaveStep.readTable 0 st1 rfl (by decide)
  have h3 : SaveStep recs2 st2 st3 :=
    SaveStep.writeTable 0 st2 st1.table rfl (by decide)
  have h4 : SaveStep recs2 st3 st4 := SaveStep.acquire 1 st3 rfl (by decide)
  have h5 : SaveStep recs2 st4 st5 := SaveStep.readTable 1 st4 rfl (by decide)
  have h6 : SaveStep recs2 st5 st6 :=
    SaveStep.writeTable 1 st5 st4.table rfl (by decide)
  exact Relation.ReflTransGen.head h1 (Relation.ReflTransGen.head h2
    (Relation.ReflTransGen.head h3 (Relation.ReflTransGen.head h4
      (Relation.ReflTransGen.head h5 (Relation.ReflTransGen.single h6)))))

theorem store_appends_serialized_witness :
    st6.table.length = 2 ∧ st6.table.Nodup
      ∧ (recs2 0 ∈ st6.table ∧ recs2 1 ∈ st6.table) := by
  have h := store_appends_serialized recs2 st6 chain_reach (by decide)
  have hinj : Function.Injective recs2 := by decide
  exact ⟨h.1, (h.2 hinj).1, (h.2 hinj).2 0, (h.2 hinj).2 1⟩
